import Mathlib

/-!
Verification development for the `lenskit.algorithms` capability module:
a shallow embedding of the `Algorithm` base class (`get_params`, `load`),
the `Predictor.predict` aggregator, and `Recommender.adapt`, together with
proofs of the module's ordering, grouping, missing-value, parameter and
adapter properties.
-/

namespace LKSpec

/-- User identifiers (the `user` column). -/
abbrev User := Int

/-- Item identifiers (the `item` column). -/
abbrev Item := Int

/-- Predicted scores.  A pandas score cell is either a real score or the
`NaN` "no value" marker; we model a cell as `Option Score` with `none`
standing for the marker. -/
abbrev Score := Rat

/-- The series returned by `predict_for_user`: a mapping from item to
score cell, represented as an association list in index order.  An item
the model cannot score may either carry the marker (`none` value) or be
absent from the list entirely. -/
abbrev Preds := List (Item × Option Score)

/-- The type of `predict_for_user` implementations: one user identity and
the collection of candidate items, producing an item-indexed score series. -/
abbrev Pfu := User → List Item → Preds

/-- Stable first-occurrence deduplication with an accumulator of already
seen keys: the behaviour of `groupby('user', sort=False)` on the key
column.  `firstOccurAux seen l` lists the elements of `l` that are not in
`seen`, each once, in order of first appearance. -/
def firstOccurAux (seen : List User) : List User → List User
  | [] => []
  | u :: rest =>
    if u ∈ seen then firstOccurAux seen rest
    else u :: firstOccurAux (u :: seen) rest

/-- The distinct users of a key column, in first-appearance order
(`groupby(sort=False)` group order). -/
def firstOccur (l : List User) : List User := firstOccurAux [] l

/-- Rows of a frame tagged with their positional index, starting at `n`:
the model of a default `RangeIndex`. -/
def enumRows (n : Nat) : List (User × Item) → List (Nat × User × Item)
  | [] => []
  | p :: rest => (n, p) :: enumRows (n + 1) rest

/-- The rows of one `groupby('user')` group: the (index, item) rows of
`pairs` whose user equals `u`, in original order. -/
def groupRows (pairs : List (User × Item)) (u : User) : List (Nat × Item) :=
  ((enumRows 0 pairs).filter (fun r => r.2.1 = u)).map (fun r => (r.1, r.2.2))

/-- The groups produced by `pairs.groupby('user', sort=False)`: one group
per distinct user in first-appearance order, carrying that user's
(index, item) rows. -/
def userGroups (pairs : List (User × Item)) : List (User × List (Nat × Item)) :=
  (firstOccur (pairs.map Prod.fst)).map (fun u => (u, groupRows pairs u))

/-- The inner `upred` closure of `Predictor.predict`: for one group, call
`predict_for_user` once with the group's items, then left-join the result
back onto the group's rows on `item` (a missing item joins to the `NaN`
marker, i.e. `none`, as does an item explicitly carrying the marker). -/
def upred (pfu : Pfu) (u : User) (rows : List (Nat × Item)) :
    List (Nat × Option Score) :=
  let preds := pfu u (rows.map Prod.snd)
  rows.map (fun r => (r.1, (preds.lookup r.2).join))

/-- The default `Predictor.predict` on a projected `pairs` table (the
`ratings is None` path): group by user with `sort=False`, apply `upred`
to each group, concatenate, and re-select the rows in the original
positional index order (`res.loc[pairs.index.values]`). -/
def predictPairs (pfu : Pfu) (pairs : List (User × Item)) : List (Option Score) :=
  let res := ((userGroups pairs).map (fun g => upred pfu g.1 g.2)).flatten
  (List.range pairs.length).map (fun i => (res.lookup i).join)

/-- The sequence of `predict_for_user` invocations `predict` performs:
one call per group of `userGroups`, passing the group's user and the
group's full item column. -/
def predictCalls (pairs : List (User × Item)) : List (User × List Item) :=
  (userGroups pairs).map (fun g => (g.1, g.2.map Prod.snd))

/-- The full item column requested for user `u`: items of the rows of
`pairs` whose user is `u`, in input order. -/
def groupItems (pairs : List (User × Item)) (u : User) : List Item :=
  (pairs.filter (fun p => p.1 = u)).map Prod.snd

/-- A `pairs` row as the caller hands it to `predict`: a `user` column, an
`item` column, and arbitrary additional columns. -/
structure RowX where
  user : User
  item : Item
  extra : List (String × Int)

/-- The projection `pairs.loc[:, ['user', 'item']]` performed by
`predict` before grouping. -/
def projectPairs (rows : List RowX) : List (User × Item) :=
  rows.map (fun r => (r.user, r.item))

/-- The per-call rating override table (`ratings` argument). -/
abbrev Ratings := List (User × Item × Score)

/-- Errors the default `predict` can raise. -/
inductive PredictError where
  | notImplemented
  deriving DecidableEq

/-- The default `Predictor.predict` in full: raises `NotImplementedError`
when a `ratings` override is supplied, otherwise projects the pairs table
to its `user` and `item` columns and runs the grouping aggregator. -/
def predict (pfu : Pfu) (rows : List RowX) (ratings : Option Ratings) :
    Except PredictError (List (Option Score)) :=
  match ratings with
  | some _ => .error .notImplemented
  | none => .ok (predictPairs pfu (projectPairs rows))

/-- The `predict_for_user` of the concrete scenario of the spec:
user 1 scores item 10 at 7/2 and carries the marker for item 20;
user 2 scores item 10 at 4. -/
def pfuScenario : Pfu := fun u _ =>
  if u = 1 then [(10, some (7 / 2 : Rat)), (20, none)]
  else if u = 2 then [(10, some (4 : Rat))]
  else []

/-- A Python value as `Algorithm.get_params` sees it: either a plain
value, or an object that itself advertises `get_params` (a parameterized
sub-algorithm), carrying its declared constructor-parameter names
(`inspect.signature(self.__class__).parameters.keys()`, in declaration
order) and its instance attribute dictionary. -/
inductive PValue where
  | base : Int → PValue
  | algo : List String → List (String × PValue) → PValue

/-- The duck-typing probe `hasattr(value, 'get_params')`. -/
def PValue.hasGetParams : PValue → Bool
  | .base _ => false
  | .algo _ _ => true

/-- Python `dict` assignment `d[k] = v`: overwrite in place when the key
is already present, append otherwise (insertion order is preserved). -/
def dictInsert {α : Type} (d : List (String × α)) (k : String) (v : α) :
    List (String × α) :=
  if d.any (fun p => p.1 = k) then
    d.map (fun p => if p.1 = k then (k, v) else p)
  else d ++ [(k, v)]

/-- The nested-parameter merge loop of `get_params`:
`for k, sv in sps.items(): params[name + '__' + k] = sv`. -/
def mergeSub {α : Type} (name : String) (sps : List (String × α))
    (params : List (String × α)) : List (String × α) :=
  sps.foldl (fun ps kv => dictInsert ps (name ++ "__" ++ kv.1) kv.2) params

mutual

/-- `Algorithm.get_params(deep)`: walk the constructor-parameter names in
order; for each name the instance has an attribute for, record the
attribute value, and when `deep` holds and the value advertises
`get_params`, merge the value's own parameters under `name__child` keys.
On a plain value (which has no constructor signature to inspect) the
result is empty. -/
def get_params (deep : Bool) : PValue → List (String × PValue)
  | .base _ => []
  | .algo names attrs => paramsLoop deep attrs names []
termination_by v => sizeOf v
decreasing_by
  all_goals simp_wf
  all_goals omega

/-- The `for name in names` loop body of `get_params`, carrying the
`params` dictionary built so far. -/
def paramsLoop (deep : Bool) (attrs : List (String × PValue)) :
    List String → List (String × PValue) → List (String × PValue)
  | [], params => params
  | name :: rest, params =>
    match h : attrs.lookup name with
    | none => paramsLoop deep attrs rest params
    | some value =>
      let ps1 := dictInsert params name value
      let ps2 :=
        if deep && value.hasGetParams then
          mergeSub name (get_params deep value) ps1
        else ps1
      paramsLoop deep attrs rest ps2
termination_by l _ => sizeOf attrs + sizeOf l
decreasing_by
  all_goals simp_wf
  all_goals
    (have hs : sizeOf value < sizeOf attrs := by
      clear * - h
      induction attrs with
      | nil => simp [List.lookup] at h
      | cons a t ih =>
        rcases a with ⟨k0, v0⟩
        rw [List.lookup] at h
        by_cases hk : name == k0
        · simp only [hk] at h
          cases h
          simp
          omega
        · rw [Bool.not_eq_true] at hk
          simp only [hk] at h
          have := ih h
          simp
          omega
     omega)

end

/-- Python `dict.update`: assign each entry of `other` in order
(`self.__dict__.update(obj.__dict__)`). -/
def dictUpdate {α : Type} (d other : List (String × α)) : List (String × α) :=
  other.foldl (fun acc kv => dictInsert acc kv.1 kv.2) d

/-- `Algorithm.load`: unpickle a stored object and transplant its state by
merging its `__dict__` into the current instance's `__dict__`. -/
def load {α : Type} (selfDict objDict : List (String × α)) :
    List (String × α) :=
  dictUpdate selfDict objDict

/-- An algorithm as `Recommender.adapt` classifies it: `plain` is an
algorithm that does not implement the Recommender capability,
`recommender` is one for which `isinstance(algo, Recommender)` already
holds, and `topN` is the wrapper `adapt` builds.  Modelled from the spec:
the external `TopN` collaborator (`lenskit.algorithms.basic.TopN`, not
among the sources) accepts an algorithm in its constructor and itself
implements the Recommender capability. -/
inductive Algo where
  | plain : Nat → Algo
  | recommender : Nat → Algo
  | topN : Algo → Algo
  deriving DecidableEq

/-- The `isinstance(algo, Recommender)` capability test used by `adapt`. -/
def Algo.isRecommender : Algo → Bool
  | .plain _ => false
  | .recommender _ => true
  | .topN _ => true

/-- `Recommender.adapt`: return `algo` itself when it already implements
the Recommender capability, otherwise wrap it in `TopN`. -/
def adapt (algo : Algo) : Algo :=
  if algo.isRecommender then algo else .topN algo

/-- A `predict_for_user` implementation that scores every requested item
with the constant 1. -/
def pfuConst : Pfu := fun _ items => items.map (fun it => (it, some (1 : Rat)))

/-- A `predict_for_user` implementation that returns the empty series:
no requested item receives an entry. -/
def pfuEmpty : Pfu := fun _ _ => []

/-- An algorithm whose constructor declares parameters `b` and `b__c`,
whose instance stores only attribute `b` (a sub-algorithm with parameter
`c` stored at attribute `c`), and which has no attribute named `b__c`. -/
def collideAlgo : PValue :=
  .algo ["b", "b__c"] [("b", .algo ["c"] [("c", .base 0)])]

/-- The contract of `predict_for_user` as `predict` relies on it: the
returned series covers exactly the requested items, and the score of a
requested item is a function of the user and the item alone (`score u it`,
an `Option Score` so that the "no value" marker is a possible answer). -/
def PfuContract (pfu : Pfu) (score : User → Item → Option Score) : Prop :=
  ∀ (u : User) (items : List Item) (it : Item),
    (pfu u items).lookup it = if it ∈ items then some (score u it) else none

/-- A row whose extra column is `x = 0`. -/
def rowA : RowX := ⟨1, 10, [("x", 0)]⟩

/-- A row with the same user and item as `rowA` but different extra data. -/
def rowB : RowX := ⟨1, 10, [("y", 7)]⟩

/-- The two-level algorithm of the parameter round-trip scenario:
constructor parameters `a` and `b`, attribute `a` a plain value,
attribute `b` a sub-algorithm with constructor parameter `c` stored at
attribute `c`. -/
def nestedAlgo (x z : Int) : PValue :=
  .algo ["a", "b"] [("a", .base x), ("b", .algo ["c"] [("c", .base z)])]

/-! Section: Association-list lookup helpers -/

theorem lookup_append {κ β : Type} [BEq κ] [LawfulBEq κ]
    (l₁ l₂ : List (κ × β)) (k : κ) :
    (l₁ ++ l₂).lookup k = ((l₁.lookup k).orElse fun _ => l₂.lookup k) := by
  induction l₁ with
  | nil => simp [List.lookup]
  | cons a t ih =>
    rw [List.cons_append]
    rcases a with ⟨k0, v0⟩
    by_cases h : k = k0
    · subst h; simp [List.lookup]
    · have hb : (k == k0) = false := beq_false_of_ne h
      simp only [List.lookup, hb, ih]

theorem lookup_eq_none_of_not_mem {κ β : Type} [BEq κ] [LawfulBEq κ]
    {l : List (κ × β)} {k : κ}
    (h : k ∉ l.map Prod.fst) : l.lookup k = none := by
  induction l with
  | nil => rfl
  | cons a t ih =>
    rcases a with ⟨k0, v0⟩
    simp only [List.map_cons, List.mem_cons, not_or] at h
    have hb : (k == k0) = false := beq_false_of_ne h.1
    simp only [List.lookup, hb]
    exact ih h.2

theorem lookup_eq_some_of_mem {κ β : Type} [BEq κ] [LawfulBEq κ]
    {l : List (κ × β)} {k : κ} {v : β}
    (hnd : (l.map Prod.fst).Nodup) (hm : (k, v) ∈ l) : l.lookup k = some v := by
  induction l with
  | nil => cases hm
  | cons a t ih =>
    rcases a with ⟨k0, v0⟩
    simp only [List.map_cons, List.nodup_cons] at hnd
    rcases List.mem_cons.1 hm with h | h
    · cases h
      simp [List.lookup]
    · have hk : k ≠ k0 := by
        rintro rfl
        exact hnd.1 (List.mem_map.2 ⟨(k, v), h, rfl⟩)
      have hb : (k == k0) = false := beq_false_of_ne hk
      simp only [List.lookup, hb]
      exact ih hnd.2 h

/-! Section: Stable first-occurrence grouping -/

theorem mem_firstOccurAux (a : User) :
    ∀ (l seen : List User), a ∈ firstOccurAux seen l ↔ a ∈ l ∧ a ∉ seen := by
  intro l
  induction l with
  | nil => intro seen; simp [firstOccurAux]
  | cons u rest ih =>
    intro seen
    by_cases hu : u ∈ seen
    · rw [firstOccurAux, if_pos hu, ih]
      constructor
      · rintro ⟨h1, h2⟩; exact ⟨List.mem_cons_of_mem _ h1, h2⟩
      · rintro ⟨h1, h2⟩
        rcases List.mem_cons.1 h1 with rfl | h1
        · exact absurd hu h2
        · exact ⟨h1, h2⟩
    · rw [firstOccurAux, if_neg hu]
      constructor
      · intro hmem
        rcases List.mem_cons.1 hmem with rfl | hmem
        · exact ⟨List.mem_cons_self a rest, hu⟩
        · obtain ⟨h1, h2⟩ := (ih (u :: seen)).1 hmem
          exact ⟨List.mem_cons_of_mem _ h1, fun hs => h2 (List.mem_cons_of_mem _ hs)⟩
      · rintro ⟨h1, h2⟩
        rcases List.mem_cons.1 h1 with rfl | h1
        · exact List.mem_cons_self a _
        · by_cases hau : a = u
          · exact hau ▸ List.mem_cons_self u _
          · refine List.mem_cons_of_mem _ ((ih (u :: seen)).2 ⟨h1, fun hs => ?_⟩)
            rcases List.mem_cons.1 hs with h | h
            · exact hau h
            · exact h2 h

theorem mem_firstOccur {a : User} {l : List User} : a ∈ firstOccur l ↔ a ∈ l := by
  rw [firstOccur, mem_firstOccurAux]
  simp

theorem nodup_firstOccurAux :
    ∀ (l seen : List User), (firstOccurAux seen l).Nodup := by
  intro l
  induction l with
  | nil => intro seen; simp [firstOccurAux]
  | cons u rest ih =>
    intro seen
    by_cases hu : u ∈ seen
    · rw [firstOccurAux, if_pos hu]; exact ih seen
    · rw [firstOccurAux, if_neg hu]
      refine List.nodup_cons.2 ⟨fun hmem => ?_, ih _⟩
      have := (mem_firstOccurAux u rest (u :: seen)).1 hmem
      exact this.2 (List.mem_cons_self u seen)

theorem pairwise_firstOccurAux :
    ∀ (l seen : List User),
      (firstOccurAux seen l).Pairwise (fun a b => l.indexOf a < l.indexOf b) := by
  intro l
  induction l with
  | nil => intro seen; simp [firstOccurAux]
  | cons u rest ih =>
    intro seen
    by_cases hu : u ∈ seen
    · rw [firstOccurAux, if_pos hu]
      refine ((ih seen).imp_of_mem ?_)
      intro a b ha hb hab
      have ha' := (mem_firstOccurAux a rest seen).1 ha
      have hb' := (mem_firstOccurAux b rest seen).1 hb
      have hau : u ≠ a := fun h => ha'.2 (h ▸ hu)
      have hbu : u ≠ b := fun h => hb'.2 (h ▸ hu)
      rw [List.indexOf_cons_ne _ hau, List.indexOf_cons_ne _ hbu]
      exact Nat.succ_lt_succ hab
    · rw [firstOccurAux, if_neg hu]
      refine List.pairwise_cons.2 ⟨fun b hb => ?_, ?_⟩
      · have hb' := (mem_firstOccurAux b rest (u :: seen)).1 hb
        have hbu : u ≠ b := fun h => hb'.2 (h ▸ List.mem_cons_self u seen)
        rw [List.indexOf_cons_self, List.indexOf_cons_ne _ hbu]
        exact Nat.succ_pos _
      · refine ((ih (u :: seen)).imp_of_mem ?_)
        intro a b ha hb hab
        have ha' := (mem_firstOccurAux a rest (u :: seen)).1 ha
        have hb' := (mem_firstOccurAux b rest (u :: seen)).1 hb
        have hau : u ≠ a := fun h => ha'.2 (h ▸ List.mem_cons_self u seen)
        have hbu : u ≠ b := fun h => hb'.2 (h ▸ List.mem_cons_self u seen)
        rw [List.indexOf_cons_ne _ hau, List.indexOf_cons_ne _ hbu]
        exact Nat.succ_lt_succ hab

theorem nodup_firstOccur (l : List User) : (firstOccur l).Nodup :=
  nodup_firstOccurAux l []

theorem pairwise_firstOccur (l : List User) :
    (firstOccur l).Pairwise (fun a b => l.indexOf a < l.indexOf b) :=
  pairwise_firstOccurAux l []

/-! Section: Indexed rows -/

theorem enumRows_map_fst (pairs : List (User × Item)) :
    ∀ n, (enumRows n pairs).map Prod.fst = List.range' n pairs.length := by
  induction pairs with
  | nil => intro n; rfl
  | cons p rest ih =>
    intro n
    simp only [enumRows, List.map_cons, List.length_cons, List.range'_succ, ih]

theorem enumRows_mem_of_lt (pairs : List (User × Item)) :
    ∀ (n i : Nat) (h : i < pairs.length),
      (n + i, pairs.get ⟨i, h⟩) ∈ enumRows n pairs := by
  induction pairs with
  | nil => intro n i h; cases h
  | cons p rest ih =>
    intro n i h
    cases i with
    | zero => simp [enumRows]
    | succ j =>
      have := ih (n + 1) j (Nat.lt_of_succ_lt_succ h)
      have harr : n + (j + 1) = (n + 1) + j := by omega
      rw [harr]
      exact List.mem_cons_of_mem _ this

theorem enumRows_mem_elim (pairs : List (User × Item)) :
    ∀ {n j : Nat} {p : User × Item}, (j, p) ∈ enumRows n pairs →
      ∃ (i : Nat) (h : i < pairs.length), j = n + i ∧ p = pairs.get ⟨i, h⟩ := by
  induction pairs with
  | nil => intro n j p h; cases h
  | cons q rest ih =>
    intro n j p h
    rcases List.mem_cons.1 h with h | h
    · injection h with h1 h2
      exact ⟨0, Nat.succ_pos _, by omega, h2⟩
    · obtain ⟨i, hi, hj, hp⟩ := ih h
      exact ⟨i + 1, Nat.succ_lt_succ hi, by omega, hp⟩

theorem mem_groupRows_iff {pairs : List (User × Item)} {u : User} {i : Nat}
    {it : Item} :
    (i, it) ∈ groupRows pairs u ↔
      ∃ h : i < pairs.length, pairs.get ⟨i, h⟩ = (u, it) := by
  constructor
  · intro hm
    rw [groupRows] at hm
    obtain ⟨r, hr, hre⟩ := List.mem_map.1 hm
    obtain ⟨hmem, hu⟩ := List.mem_filter.1 hr
    obtain ⟨k, hk, hj, hp⟩ := enumRows_mem_elim pairs hmem
    have hu' : r.2.1 = u := by simpa using hu
    injection hre with h1 h2
    refine ⟨by omega, ?_⟩
    have hik : i = k := by omega
    subst hik
    rw [← hp]
    rcases r with ⟨j', u', it'⟩
    simp only at hu' h2
    rw [hu', h2]
  · rintro ⟨h, hp⟩
    rw [groupRows]
    refine List.mem_map.2 ⟨(i, pairs.get ⟨i, h⟩), ?_, by rw [hp]⟩
    refine List.mem_filter.2 ⟨?_, by rw [hp]; simp⟩
    have := enumRows_mem_of_lt pairs 0 i h
    simpa using this

theorem groupRows_keys_nodup (pairs : List (User × Item)) (u : User) :
    ((groupRows pairs u).map Prod.fst).Nodup := by
  rw [groupRows, List.map_map]
  have hsub : ((enumRows 0 pairs).filter (fun r => r.2.1 = u)).Sublist
      (enumRows 0 pairs) := List.filter_sublist _
  have hsub2 := hsub.map Prod.fst
  have hnd : ((enumRows 0 pairs).map Prod.fst).Nodup := by
    rw [enumRows_map_fst]
    exact List.nodup_range' 0 pairs.length
  have : (((enumRows 0 pairs).filter (fun r => r.2.1 = u)).map Prod.fst).Nodup :=
    hsub2.nodup hnd
  simpa using this

theorem groupRows_map_snd_aux (pairs : List (User × Item)) (u : User) :
    ∀ n, (((enumRows n pairs).filter (fun r => r.2.1 = u)).map
        (fun r => r.2.2)) = (pairs.filter (fun p => p.1 = u)).map Prod.snd := by
  induction pairs with
  | nil => intro n; rfl
  | cons p rest ih =>
    intro n
    by_cases hp : p.1 = u
    · simp [enumRows, List.filter_cons, hp, ih]
    · simp [enumRows, List.filter_cons, hp, ih]

theorem groupRows_map_snd (pairs : List (User × Item)) (u : User) :
    (groupRows pairs u).map Prod.snd = groupItems pairs u := by
  rw [groupRows, groupItems, List.map_map]
  exact groupRows_map_snd_aux pairs u 0

/-! Section: The aggregator, row by row -/

theorem upred_keys (pfu : Pfu) (u : User) (rows : List (Nat × Item)) :
    (upred pfu u rows).map Prod.fst = rows.map Prod.fst := by
  simp [upred, List.map_map]

theorem upred_lookup {pfu : Pfu} {u : User} {rows : List (Nat × Item)}
    {i : Nat} {it : Item} (hnd : (rows.map Prod.fst).Nodup)
    (hm : (i, it) ∈ rows) :
    (upred pfu u rows).lookup i =
      some (((pfu u (rows.map Prod.snd)).lookup it).join) := by
  refine lookup_eq_some_of_mem ?_ ?_
  · rw [upred_keys]; exact hnd
  · rw [upred]
    exact List.mem_map.2 ⟨(i, it), hm, rfl⟩

theorem lookup_flatten_blocks {β : Type} (f : User → List (Nat × β)) :
    ∀ (us : List User) (u : User) (i : Nat) (v : β),
      u ∈ us →
      (∀ u' ∈ us, u' ≠ u → i ∉ (f u').map Prod.fst) →
      (f u).lookup i = some v →
      ((us.map f).flatten).lookup i = some v := by
  intro us
  induction us with
  | nil => intro u i v h; cases h
  | cons u0 rest ih =>
    intro u i v hmem habs hv
    rw [List.map_cons, List.flatten_cons, lookup_append]
    by_cases h0 : u0 = u
    · subst h0
      rw [hv]
      rfl
    · have hnone : (f u0).lookup i = none :=
        lookup_eq_none_of_not_mem (habs u0 (List.mem_cons_self _ _) h0)
      rw [hnone]
      have hmem' : u ∈ rest := by
        rcases List.mem_cons.1 hmem with rfl | hr
        · exact absurd rfl h0
        · exact hr
      have := ih u i v hmem' (fun u' hu' => habs u' (List.mem_cons_of_mem _ hu')) hv
      simpa using this

theorem predictPairs_length (pfu : Pfu) (pairs : List (User × Item)) :
    (predictPairs pfu pairs).length = pairs.length := by
  simp [predictPairs]

theorem predictPairs_getElem (pfu : Pfu) (pairs : List (User × Item))
    (i : Nat) (h : i < pairs.length) :
    (predictPairs pfu pairs)[i]? =
      some (((pfu (pairs.get ⟨i, h⟩).1
        (groupItems pairs (pairs.get ⟨i, h⟩).1)).lookup
          (pairs.get ⟨i, h⟩).2).join) := by
  have hres : (((userGroups pairs).map (fun g => upred pfu g.1 g.2)).flatten).lookup i =
      some (((pfu (pairs.get ⟨i, h⟩).1
        (groupItems pairs (pairs.get ⟨i, h⟩).1)).lookup
          (pairs.get ⟨i, h⟩).2).join) := by
    have hmapmap : (userGroups pairs).map (fun g => upred pfu g.1 g.2) =
        (firstOccur (pairs.map Prod.fst)).map
          (fun w => upred pfu w (groupRows pairs w)) := by
      rw [userGroups, List.map_map]
      rfl
    rw [hmapmap]
    refine lookup_flatten_blocks (fun w => upred pfu w (groupRows pairs w))
      (firstOccur (pairs.map Prod.fst)) (pairs.get ⟨i, h⟩).1 i _ ?_ ?_ ?_
    · exact mem_firstOccur.2 (List.mem_map.2 ⟨pairs.get ⟨i, h⟩, List.get_mem _ _ _, rfl⟩)
    · intro w hw hne
      rw [upred_keys]
      intro hmem
      obtain ⟨r, hr, hre⟩ := List.mem_map.1 hmem
      have hr2 : (i, r.2) ∈ groupRows pairs w := by
        rw [← hre]
        exact hr
      obtain ⟨h', hp⟩ := mem_groupRows_iff.1 hr2
      have hg : pairs.get ⟨i, h'⟩ = pairs.get ⟨i, h⟩ := rfl
      rw [hg] at hp
      exact hne (by rw [hp])
    · have hm : (i, (pairs.get ⟨i, h⟩).2) ∈ groupRows pairs (pairs.get ⟨i, h⟩).1 :=
        mem_groupRows_iff.2 ⟨h, rfl⟩
      rw [upred_lookup (groupRows_keys_nodup pairs (pairs.get ⟨i, h⟩).1) hm,
        groupRows_map_snd]
  simp only [predictPairs]
  rw [List.getElem?_map, List.getElem?_range h, Option.map_some']
  rw [hres]
  rfl

theorem lookup_self_map (c : Option Score) :
    ∀ (items : List Item) (it : Item),
      (items.map (fun j => (j, c))).lookup it =
        if it ∈ items then some c else none := by
  intro items
  induction items with
  | nil => intro it; simp [List.lookup]
  | cons a t ih =>
    intro it
    by_cases hia : it = a
    · subst hia
      simp [List.lookup]
    · have hb : (it == a) = false := beq_false_of_ne hia
      simp [List.lookup, hb, ih, hia]

theorem projectPairs_eq_of_columns :
    ∀ (rows1 rows2 : List RowX),
      rows1.map RowX.user = rows2.map RowX.user →
      rows1.map RowX.item = rows2.map RowX.item →
      projectPairs rows1 = projectPairs rows2 := by
  intro rows1
  induction rows1 with
  | nil =>
    intro rows2 hu _
    cases rows2 with
    | nil => rfl
    | cons b t => exact absurd hu (by simp)
  | cons a t ih =>
    intro rows2 hu hi
    cases rows2 with
    | nil => exact absurd hu (by simp)
    | cons b t2 =>
      simp only [List.map_cons, List.cons.injEq] at hu hi
      have ht := ih t2 hu.2 hi.2
      simp only [projectPairs, List.map_cons] at ht ⊢
      rw [hu.1, hi.1, ht]

/-! Section: The claims -/

/-- Claim C1: for every ordered sequence of (user, item) pairs, possibly
with repeated and interleaved users, and every `predict_for_user`
satisfying its contract (it covers exactly the requested items, scoring
each as a function of the user and item), the default `predict` returns
one score per input row, and the entry at position `i` is the score for
pair `P[i]` — the output is aligned index-for-index with the input row
order despite the internal regrouping by user. -/
theorem predict_aligns_with_input (pfu : Pfu) (score : User → Item → Option Score)
    (hc : PfuContract pfu score) (pairs : List (User × Item)) :
    (predictPairs pfu pairs).length = pairs.length ∧
      ∀ (i : Nat) (h : i < pairs.length),
        (predictPairs pfu pairs)[i]? =
          some (score (pairs.get ⟨i, h⟩).1 (pairs.get ⟨i, h⟩).2) := by
  refine ⟨predictPairs_length pfu pairs, fun i h => ?_⟩
  rw [predictPairs_getElem pfu pairs i h, hc]
  have hmem : (pairs.get ⟨i, h⟩).2 ∈ groupItems pairs (pairs.get ⟨i, h⟩).1 := by
    rw [groupItems]
    refine List.mem_map.2 ⟨pairs.get ⟨i, h⟩, ?_, rfl⟩
    exact List.mem_filter.2 ⟨List.get_mem _ _ _, by simp⟩
  rw [if_pos hmem]
  rfl

theorem predict_aligns_with_input_witness :
    (predictPairs pfuConst [((1 : Int), (5 : Int))]).length = 1 ∧
      (predictPairs pfuConst [((1 : Int), (5 : Int))])[0]? =
        some (some (1 : Rat)) := by
  have hc : PfuContract pfuConst (fun _ _ => some (1 : Rat)) := by
    intro u items it
    exact lookup_self_map (some 1) items it
  have h := predict_aligns_with_input pfuConst (fun _ _ => some (1 : Rat)) hc
    [((1 : Int), (5 : Int))]
  exact ⟨h.1, h.2 0 (by decide)⟩

/-- Claim C2: the default `predict` partitions the rows by user identity:
each distinct user of the input receives exactly one `predict_for_user`
call (the call users are pairwise distinct and are exactly the input
users), the calls are ordered by the users' first appearance in the input
(pairwise increasing first-occurrence index — stable grouping, not a
sort), and each call carries that user's full requested item column. -/
theorem predict_groups_stably (pairs : List (User × Item)) :
    ((predictCalls pairs).map Prod.fst).Nodup ∧
      (∀ u : User, u ∈ (predictCalls pairs).map Prod.fst ↔ u ∈ pairs.map Prod.fst) ∧
      ((predictCalls pairs).map Prod.fst).Pairwise
        (fun u v => (pairs.map Prod.fst).indexOf u < (pairs.map Prod.fst).indexOf v) ∧
      ∀ c ∈ predictCalls pairs, c.2 = groupItems pairs c.1 := by
  have hfst : (predictCalls pairs).map Prod.fst = firstOccur (pairs.map Prod.fst) := by
    rw [predictCalls, userGroups, List.map_map, List.map_map]
    exact List.map_id _
  refine ⟨?_, fun u => ?_, ?_, ?_⟩
  · rw [hfst]; exact nodup_firstOccur _
  · rw [hfst, mem_firstOccur]
  · rw [hfst]; exact pairwise_firstOccur _
  · intro c hc
    rw [predictCalls] at hc
    obtain ⟨g, hg, hge⟩ := List.mem_map.1 hc
    rw [userGroups] at hg
    obtain ⟨u, _, hue⟩ := List.mem_map.1 hg
    rw [← hge, ← hue]
    exact groupRows_map_snd pairs u

theorem predict_groups_stably_witness :
    (((1 : User), [(10 : Item), 20]) ∈ predictCalls [(1, 10), (1, 20), (2, 10)]) ∧
      [(10 : Item), 20] = groupItems [(1, 10), (1, 20), (2, 10)] 1 := by
  have hmem : (((1 : User), [(10 : Item), 20]) ∈
      predictCalls [(1, 10), (1, 20), (2, 10)]) := by decide
  exact ⟨hmem, (predict_groups_stably [(1, 10), (1, 20), (2, 10)]).2.2.2 _ hmem⟩

/-- Claim C3: the default `predict` with a supplied (non-`None`) `ratings`
override fails with the `NotImplementedError` before any per-user scoring
happens (the result does not depend on `predict_for_user` at all), while
with `ratings` absent no such error is raised. -/
theorem predict_rejects_ratings_override (pfu pfu' : Pfu) (rows : List RowX)
    (r : Ratings) :
    predict pfu rows (some r) = .error .notImplemented ∧
      predict pfu rows (some r) = predict pfu' rows (some r) ∧
      predict pfu rows none = .ok (predictPairs pfu (projectPairs rows)) :=
  ⟨rfl, rfl, rfl⟩

/-- Claim C4: a row whose item receives no entry in the series returned by
`predict_for_user` for that row's user resolves to the explicit "no value"
marker: the output still has one entry per input row (the row is neither
omitted nor an error) and the row's entry is the marker `none`. -/
theorem predict_missing_item_is_marker (pfu : Pfu) (pairs : List (User × Item))
    (i : Nat) (h : i < pairs.length)
    (hmiss : (pfu (pairs.get ⟨i, h⟩).1
        (groupItems pairs (pairs.get ⟨i, h⟩).1)).lookup (pairs.get ⟨i, h⟩).2 = none) :
    (predictPairs pfu pairs).length = pairs.length ∧
      (predictPairs pfu pairs)[i]? = some none := by
  refine ⟨predictPairs_length pfu pairs, ?_⟩
  rw [predictPairs_getElem pfu pairs i h, hmiss]
  rfl

theorem predict_missing_item_is_marker_witness :
    (predictPairs pfuEmpty [((1 : Int), (10 : Int))]).length = 1 ∧
      (predictPairs pfuEmpty [((1 : Int), (10 : Int))])[0]? = some none :=
  predict_missing_item_is_marker pfuEmpty [((1 : Int), (10 : Int))] 0
    (by decide) (by decide)

/-- Claim C7: `Recommender.adapt` is idempotent — `adapt (adapt X)` is the
very algorithm `adapt X` returns; an algorithm already implementing the
Recommender capability is returned itself, unchanged, and a
non-Recommender algorithm is returned wrapped in `TopN`. -/
theorem adapt_idempotent (a : Algo) :
    adapt (adapt a) = adapt a ∧
      (a.isRecommender = true → adapt a = a) ∧
      (a.isRecommender = false → adapt a = .topN a) := by
  refine ⟨?_, fun h => ?_, fun h => ?_⟩
  · cases a <;> simp [adapt, Algo.isRecommender]
  · rw [adapt, if_pos h]
  · rw [adapt, if_neg (by simp [h])]

theorem adapt_idempotent_witness :
    adapt (Algo.recommender 0) = Algo.recommender 0 ∧
      adapt (Algo.plain 0) = Algo.topN (Algo.plain 0) :=
  ⟨(adapt_idempotent (Algo.recommender 0)).2.1 rfl,
   (adapt_idempotent (Algo.plain 0)).2.2 rfl⟩

/-- Claim C8: on users `[1, 1, 2]` and items `[10, 20, 10]`, with
`predict_for_user(1, {10, 20}) = {10: 3.5, 20: no-value}` and
`predict_for_user(2, {10}) = {10: 4.0}`, the default `predict` returns
`[3.5, no-value, 4.0]` in the original input row order. -/
theorem predict_concrete_scenario :
    predictPairs pfuScenario [(1, 10), (1, 20), (2, 10)] =
      [some (7 / 2 : Rat), none, some (4 : Rat)] := rfl

/-- Claim C9: the default `predict` depends only on the `user` and `item`
columns of the pairs table: two tables that agree on those two columns row
for row produce the very same result, whatever their other columns hold,
because the aggregator projects the input to exactly those two columns
before grouping. -/
theorem predict_ignores_extra_columns (pfu : Pfu) (rows1 rows2 : List RowX)
    (ratings : Option Ratings)
    (hu : rows1.map RowX.user = rows2.map RowX.user)
    (hi : rows1.map RowX.item = rows2.map RowX.item) :
    predict pfu rows1 ratings = predict pfu rows2 ratings := by
  cases ratings with
  | some r => rfl
  | none =>
    have hp := projectPairs_eq_of_columns rows1 rows2 hu hi
    simp only [predict, hp]

theorem predict_ignores_extra_columns_witness :
    predict pfuConst [rowA] none = predict pfuConst [rowB] none :=
  predict_ignores_extra_columns pfuConst [rowA] [rowB] none rfl rfl

/-! Section: Python dict semantics: insert and update -/

theorem lookup_map_overwrite_ne {α : Type} {k k' : String} (v : α) (hne : k' ≠ k) :
    ∀ d : List (String × α),
      (d.map (fun p => if p.1 = k then (k, v) else p)).lookup k' = d.lookup k' := by
  intro d
  induction d with
  | nil => rfl
  | cons a t ih =>
    rw [List.map_cons]
    rcases a with ⟨k0, v0⟩
    by_cases ha : k0 = k
    · subst ha
      rw [if_pos rfl]
      have hb : (k' == k0) = false := beq_false_of_ne hne
      simp only [List.lookup, hb, ih]
    · rw [if_neg ha]
      by_cases hk0 : k' = k0
      · subst hk0
        simp [List.lookup]
      · have hb : (k' == k0) = false := beq_false_of_ne hk0
        simp only [List.lookup, hb, ih]

theorem lookup_map_overwrite_self {α : Type} {k : String} (v : α) :
    ∀ d : List (String × α),
      d.any (fun p => p.1 = k) = true →
      (d.map (fun p => if p.1 = k then (k, v) else p)).lookup k = some v := by
  intro d
  induction d with
  | nil => intro h; simp at h
  | cons a t ih =>
    intro h
    rw [List.map_cons]
    rcases a with ⟨k0, v0⟩
    by_cases ha : k0 = k
    · subst ha
      rw [if_pos rfl]
      simp [List.lookup]
    · rw [if_neg ha]
      have hb : (k == k0) = false := beq_false_of_ne (fun he => ha he.symm)
      simp only [List.lookup, hb]
      apply ih
      simpa [List.any_cons, ha] using h

theorem dictInsert_lookup {α : Type} (d : List (String × α)) (k k' : String)
    (v : α) :
    (dictInsert d k v).lookup k' = if k' = k then some v else d.lookup k' := by
  rw [dictInsert]
  by_cases hmem : d.any (fun p => p.1 = k) = true
  · rw [if_pos hmem]
    by_cases hk : k' = k
    · subst hk
      rw [if_pos rfl, lookup_map_overwrite_self v d hmem]
    · rw [if_neg hk, lookup_map_overwrite_ne v hk d]
  · rw [if_neg hmem, lookup_append]
    by_cases hk : k' = k
    · subst hk
      have hnone : d.lookup k' = none := by
        apply lookup_eq_none_of_not_mem
        intro hmm
        obtain ⟨p, hp, hpe⟩ := List.mem_map.1 hmm
        exact hmem (List.any_eq_true.2 ⟨p, hp, by simp [hpe]⟩)
      rw [hnone, if_pos rfl]
      simp [List.lookup]
    · rw [if_neg hk]
      have h2 : (([(k, v)] : List (String × α)).lookup k') = none := by
        have hb : (k' == k) = false := beq_false_of_ne hk
        simp [List.lookup, hb]
      rw [h2]
      cases d.lookup k' <;> rfl

theorem dictUpdate_lookup {α : Type} :
    ∀ (other d : List (String × α)) (k : String),
      (other.map Prod.fst).Nodup →
      (dictUpdate d other).lookup k =
        ((other.lookup k).orElse fun _ => d.lookup k) := by
  intro other
  induction other with
  | nil => intro d k _; rfl
  | cons a t ih =>
    intro d k hnd
    rcases a with ⟨k0, v0⟩
    simp only [List.map_cons, List.nodup_cons] at hnd
    have hstep : dictUpdate d ((k0, v0) :: t) = dictUpdate (dictInsert d k0 v0) t :=
      rfl
    rw [hstep, ih _ k hnd.2]
    by_cases hk : k = k0
    · subst hk
      have ht : t.lookup k = none := by
        apply lookup_eq_none_of_not_mem
        intro hmm
        exact hnd.1 (by simpa using hmm)
      rw [ht]
      have hL : (Option.orElse none fun _ => (dictInsert d k v0).lookup k) =
          (dictInsert d k v0).lookup k := rfl
      rw [hL, dictInsert_lookup, if_pos rfl]
      simp [List.lookup]
    · have hb : (k == k0) = false := beq_false_of_ne hk
      cases htl : t.lookup k with
      | some w => simp [List.lookup, hb, htl]
      | none =>
        have hL : (Option.orElse none fun _ => (dictInsert d k0 v0).lookup k) =
            (dictInsert d k0 v0).lookup k := rfl
        rw [hL, dictInsert_lookup, if_neg hk]
        simp [List.lookup, hb, htl]

/-- Claim C10: `Algorithm.load` merges the loaded object's fields into the
current instance by dictionary update: every field present in the loaded
state overwrites the current field of the same name, every current field
absent from the loaded state is left unchanged, and no attribute is ever
removed by `load`. -/
theorem load_merges_by_dict_update {α : Type}
    (selfDict objDict : List (String × α))
    (hnd : (objDict.map Prod.fst).Nodup) :
    (∀ (k : String) (v : α), objDict.lookup k = some v →
        (load selfDict objDict).lookup k = some v) ∧
      (∀ k : String, objDict.lookup k = none →
        (load selfDict objDict).lookup k = selfDict.lookup k) ∧
      (∀ k : String, (selfDict.lookup k).isSome →
        ((load selfDict objDict).lookup k).isSome) := by
  have hu : ∀ k, (load selfDict objDict).lookup k =
      ((objDict.lookup k).orElse fun _ => selfDict.lookup k) := fun k =>
    dictUpdate_lookup objDict selfDict k hnd
  refine ⟨fun k v hv => ?_, fun k hv => ?_, fun k hv => ?_⟩
  · rw [hu, hv]; rfl
  · rw [hu, hv]; rfl
  · rw [hu]
    cases ho : objDict.lookup k with
    | some w => rfl
    | none =>
      have : (Option.orElse none fun _ => selfDict.lookup k) =
          selfDict.lookup k := rfl
      rw [this]
      exact hv

/-! Section: Parameter-set keys -/

theorem keys_dictInsert {α : Type} {d : List (String × α)} {k k' : String}
    {v : α} (h : k' ∈ (dictInsert d k v).map Prod.fst) :
    k' ∈ d.map Prod.fst ∨ k' = k := by
  rw [dictInsert] at h
  by_cases hmem : d.any (fun p => p.1 = k) = true
  · rw [if_pos hmem, List.map_map] at h
    obtain ⟨p, hp, hpe⟩ := List.mem_map.1 h
    by_cases hpk : p.1 = k
    · right
      rw [← hpe]
      simp [Function.comp, hpk]
    · left
      refine List.mem_map.2 ⟨p, hp, ?_⟩
      rw [← hpe]
      simp [Function.comp, hpk]
  · rw [if_neg hmem, List.map_append] at h
    rcases List.mem_append.1 h with h | h
    · left; exact h
    · right; simpa using h

theorem keys_mergeSub {α : Type} (name : String) :
    ∀ (sps params : List (String × α)) (k' : String),
      k' ∈ (mergeSub name sps params).map Prod.fst →
      k' ∈ params.map Prod.fst ∨ ∃ s, k' = name ++ "__" ++ s := by
  intro sps
  induction sps with
  | nil => intro params k' h; left; exact h
  | cons kv rest ih =>
    intro params k' h
    have hstep : mergeSub name (kv :: rest) params =
        mergeSub name rest (dictInsert params (name ++ "__" ++ kv.1) kv.2) := rfl
    rw [hstep] at h
    rcases ih _ k' h with h1 | h2
    · rcases keys_dictInsert h1 with h3 | h3
      · left; exact h3
      · right; exact ⟨kv.1, h3⟩
    · right; exact h2

theorem paramsLoop_keys (deep : Bool) (attrs : List (String × PValue)) :
    ∀ (l : List String) (params : List (String × PValue)) (k' : String),
      k' ∈ (paramsLoop deep attrs l params).map Prod.fst →
      k' ∈ params.map Prod.fst ∨
        (k' ∈ l ∧ (attrs.lookup k').isSome) ∨
        ∃ n s, n ∈ l ∧ (attrs.lookup n).isSome ∧ k' = n ++ "__" ++ s := by
  intro l
  induction l with
  | nil =>
    intro params k' h
    left
    have hstep : paramsLoop deep attrs [] params = params := by
      simp [paramsLoop]
    rwa [hstep] at h
  | cons name rest ih =>
    intro params k' h
    cases hlk : attrs.lookup name with
    | none =>
      have hstep : paramsLoop deep attrs (name :: rest) params =
          paramsLoop deep attrs rest params := by
        simp only [paramsLoop]
        split
        · rfl
        · rename_i v hv
          exact absurd (hlk.symm.trans hv) (by simp)
      rw [hstep] at h
      rcases ih params k' h with h1 | h2 | h3
      · left; exact h1
      · right; left; exact ⟨List.mem_cons_of_mem _ h2.1, h2.2⟩
      · obtain ⟨n, s, hn, hns, he⟩ := h3
        right; right; exact ⟨n, s, List.mem_cons_of_mem _ hn, hns, he⟩
    | some value =>
      have hstep : paramsLoop deep attrs (name :: rest) params =
          paramsLoop deep attrs rest
            (if deep && value.hasGetParams then
              mergeSub name (get_params deep value) (dictInsert params name value)
            else dictInsert params name value) := by
        simp only [paramsLoop]
        split
        · rename_i hv
          exact absurd (hv.symm.trans hlk) (by simp)
        · rename_i v hv
          have hvv : v = value := by
            have := hv.symm.trans hlk
            injection this
          subst hvv
          rfl
      rw [hstep] at h
      rcases ih _ k' h with h1 | h2 | h3
      · have hself : k' = name →
            (k' ∈ name :: rest ∧ (attrs.lookup k').isSome) := by
          intro he
          subst he
          exact ⟨List.mem_cons_self _ _, by rw [hlk]; rfl⟩
        by_cases hdeep : (deep && value.hasGetParams) = true
        · rw [if_pos hdeep] at h1
          rcases keys_mergeSub name _ _ k' h1 with h4 | ⟨s, hs⟩
          · rcases keys_dictInsert h4 with h5 | h5
            · left; exact h5
            · right; left; exact hself h5
          · right; right
            exact ⟨name, s, List.mem_cons_self _ _, by rw [hlk]; rfl, hs⟩
        · rw [if_neg hdeep] at h1
          rcases keys_dictInsert h1 with h5 | h5
          · left; exact h5
          · right; left; exact hself h5
      · right; left; exact ⟨List.mem_cons_of_mem _ h2.1, h2.2⟩
      · obtain ⟨n, s, hn, hns, he⟩ := h3
        right; right; exact ⟨n, s, List.mem_cons_of_mem _ hn, hns, he⟩

/-- Claim C5 counterexample: for `collideAlgo` — constructor parameters
`b` and `b__c`, attributes holding only `b` — the constructor-parameter
name `b__c` appears as a key of `get_params(deep=True)` although the
instance exposes no attribute of that exact name. -/
theorem get_params_key_without_attribute :
    "b__c" ∈ (get_params true collideAlgo).map Prod.fst ∧
      collideAlgo =
        .algo ["b", "b__c"] [("b", .algo ["c"] [("c", .base 0)])] ∧
      (([("b", PValue.algo ["c"] [("c", PValue.base 0)])] :
          List (String × PValue)).lookup "b__c") = none := by
  refine ⟨?_, rfl, by simp [List.lookup]⟩
  have hev : get_params true collideAlgo =
      [("b", PValue.algo ["c"] [("c", PValue.base 0)]), ("b__c", PValue.base 0)] := by
    simp [collideAlgo, get_params, paramsLoop, dictInsert, mergeSub,
      PValue.hasGetParams, List.lookup]
  rw [hev]
  simp

/-- Claim C5 (amended): a name appears as a key of `get_params` only if
the instance exposes an attribute of that exact name and the name is a
constructor parameter, or the key arises from the deep flattening of a
nested sub-algorithm's parameters under a `parent__child` key (which can
coincide with a constructor-parameter name that has no attribute); for an
algorithm whose constructor declares no parameters, `get_params` does not
fail and returns the empty mapping. -/
theorem get_params_key_provenance :
    (∀ (deep : Bool) (names : List String) (attrs : List (String × PValue))
        (k : String),
        k ∈ (get_params deep (.algo names attrs)).map Prod.fst →
        (k ∈ names ∧ (attrs.lookup k).isSome) ∨
          ∃ n s, n ∈ names ∧ (attrs.lookup n).isSome ∧ k = n ++ "__" ++ s) ∧
      ∀ (deep : Bool) (attrs : List (String × PValue)),
        get_params deep (.algo [] attrs) = [] := by
  constructor
  · intro deep names attrs k hk
    have hg : get_params deep (.algo names attrs) =
        paramsLoop deep attrs names [] := by
      simp [get_params]
    rw [hg] at hk
    rcases paramsLoop_keys deep attrs names [] k hk with h0 | h1 | h2
    · simp at h0
    · left; exact h1
    · right; exact h2
  · intro deep attrs
    simp [get_params, paramsLoop]

theorem get_params_key_provenance_witness :
    ("b__c" ∈ (get_params true (nestedAlgo 1 2)).map Prod.fst) ∧
      (("b__c" ∈ ["a", "b"] ∧
          (([("a", PValue.base 1),
            ("b", PValue.algo ["c"] [("c", PValue.base 2)])] :
              List (String × PValue)).lookup "b__c").isSome) ∨
        ∃ n s, n ∈ ["a", "b"] ∧
          (([("a", PValue.base 1),
            ("b", PValue.algo ["c"] [("c", PValue.base 2)])] :
              List (String × PValue)).lookup n).isSome ∧
          "b__c" = n ++ "__" ++ s) := by
  have hk : "b__c" ∈ (get_params true (nestedAlgo 1 2)).map Prod.fst := by
    have hev : get_params true (nestedAlgo 1 2) =
        [("a", PValue.base 1), ("b", PValue.algo ["c"] [("c", PValue.base 2)]),
          ("b__c", PValue.base 2)] := by
      simp [nestedAlgo, get_params, paramsLoop, dictInsert, mergeSub,
        PValue.hasGetParams, List.lookup]
    rw [hev]
    simp
  exact ⟨hk, get_params_key_provenance.1 true ["a", "b"]
    [("a", PValue.base 1), ("b", PValue.algo ["c"] [("c", PValue.base 2)])]
    "b__c" hk⟩

/-- Claim C6: for the two-level algorithm with constructor parameters `a`
and `b`, where `b` holds a sub-algorithm with its own parameter `c`,
`get_params(deep=True)` is exactly the mapping with keys `a`, `b` and
`b__c` bound to the corresponding attribute values, while
`get_params(deep=False)` contains only `a` and `b`. -/
theorem get_params_round_trip (x z : Int) :
    get_params true (nestedAlgo x z) =
      [("a", PValue.base x), ("b", PValue.algo ["c"] [("c", PValue.base z)]),
        ("b__c", PValue.base z)] ∧
      get_params false (nestedAlgo x z) =
        [("a", PValue.base x), ("b", PValue.algo ["c"] [("c", PValue.base z)])] := by
  constructor <;>
    simp [nestedAlgo, get_params, paramsLoop, dictInsert, mergeSub,
      PValue.hasGetParams, List.lookup]

theorem load_merges_by_dict_update_witness :
    (load [("a", (1 : Int)), ("b", 2)] [("b", 9), ("c", 3)]).lookup "b" =
        some 9 ∧
      (load [("a", (1 : Int)), ("b", 2)] [("b", 9), ("c", 3)]).lookup "a" =
        some 1 := by
  have h := load_merges_by_dict_update [("a", (1 : Int)), ("b", 2)]
    [("b", 9), ("c", 3)] (by decide)
  exact ⟨h.1 "b" 9 rfl, (h.2.1 "a" rfl).trans rfl⟩

end LKSpec
